import Mathlib

/-!
Shallow embedding of the speaker-attribution engine of
`app/services/transcription_service.py` (method
`TranscriptionService.transcribe_audio_with_diarization`).

Python floats are modelled as `ℚ`; Python dictionaries (which preserve
insertion order) are modelled as association lists in insertion order;
a raised exception is modelled as the `Except.error` branch carrying the
exception message.  The two upstream network calls (Whisper transcription
and pyannote diarization) are out of scope and enter as already-computed
values: a failed call is an `Except.error` input.
-/

/-- Model of one entry of `response_dict["segments"]`: `start`, `end`, `text`
as produced by the ASR engine (text not yet stripped). -/
structure TranscriptSegment where
  start : ℚ
  «end» : ℚ
  text : String
  deriving DecidableEq

/-- Model of one diarization turn yielded by `diarization.itertracks`. -/
structure DiarizationTurn where
  start : ℚ
  «end» : ℚ
  speaker : String
  deriving DecidableEq

/-- Value of the `speaker_stats` dict for one speaker:
`{"first_time": ..., "total_time": ...}`. -/
structure Stats where
  first_time : ℚ
  total_time : ℚ
  deriving DecidableEq

/-- Model of `app.schemas.transcription.SpeakerSegment`. -/
structure SpeakerSegment where
  speaker : String
  start : ℚ
  «end» : ℚ
  text : String
  deriving DecidableEq

/-- Model of the Whisper `verbose_json` response fields that the engine
reads: `segments`, `text`, and the optional `language`. -/
structure ASRResponse where
  segments : List TranscriptSegment
  text : String
  language : Option String
  deriving DecidableEq

/-- Model of `app.schemas.transcription.TranscriptionResponse`. -/
structure TranscriptionResponse where
  segments : List SpeakerSegment
  full_transcript : String
  language : String
  duration : ℚ
  deriving DecidableEq

/-- Python `int()` applied to a rational: truncation toward zero. -/
def pyInt (x : ℚ) : ℤ := if 0 ≤ x then ⌊x⌋ else -⌊-x⌋

/-- Python `str.split()` with no separator: split on whitespace runs,
discarding empty pieces. -/
def pySplit (s : String) : List String :=
  (s.split Char.isWhitespace).filter (fun w => w ≠ "")

/-- Helper for substring containment over character lists. -/
def isSubAux (pat : List Char) : List Char → Bool
  | [] => pat.isEmpty
  | c :: rest => pat.isPrefixOf (c :: rest) || isSubAux pat rest

/-- Python `pat in s` for strings: substring containment. -/
def containsSub (s pat : String) : Bool := isSubAux pat.data s.data

/-- First-match lookup in an insertion-ordered association list, i.e.
Python `d[k]` / `k in d` on a dict whose keys are unique. -/
def lookupKey (k : String) : List (String × α) → Option α
  | [] => none
  | (k2, v) :: rest => if k2 = k then some v else lookupKey k rest

/-- Point update of the first entry with the given key, i.e. Python
`d[k] = f(d[k])` on a dict. -/
def updateKey (k : String) (f : α → α) : List (String × α) → List (String × α)
  | [] => []
  | (k2, v) :: rest =>
      if k2 = k then (k2, f v) :: rest else (k2, v) :: updateKey k f rest

/-- Length of a diarization turn: `turn.end - turn.start`. -/
def turnDuration (t : DiarizationTurn) : ℚ := t.«end» - t.start

/-- Body of the first pass over `diarization.itertracks` (lines 71-77):
insert the speaker with `first_time = turn.start, total_time = 0` if absent,
then add `turn.end - turn.start` to its `total_time`. -/
def statsAdd (acc : List (String × Stats)) (t : DiarizationTurn) :
    List (String × Stats) :=
  let acc1 :=
    match lookupKey t.speaker acc with
    | some _ => acc
    | none => acc ++ [(t.speaker, ⟨t.start, 0⟩)]
  updateKey t.speaker
    (fun st => ⟨st.first_time, st.total_time + turnDuration t⟩) acc1

/-- Fold of `statsAdd` over the turn list, starting from `acc`. -/
def buildStatsFrom (acc : List (String × Stats)) :
    List DiarizationTurn → List (String × Stats)
  | [] => acc
  | t :: ts => buildStatsFrom (statsAdd acc t) ts

/-- The `speaker_stats` dict after the first pass, in insertion order. -/
def buildStats (turns : List DiarizationTurn) : List (String × Stats) :=
  buildStatsFrom [] turns

/-- Lower slot bound of a turn: `int(turn.start * 100)`. -/
def turnSlotLo (t : DiarizationTurn) : ℤ := pyInt (t.start * 100)

/-- Upper slot bound of a turn: `int(turn.end * 100)`. -/
def turnSlotHi (t : DiarizationTurn) : ℤ := pyInt (t.«end» * 100)

/-- Whether slot `n` lies in `range(int(turn.start*100), int(turn.end*100))`. -/
def coversSlot (t : DiarizationTurn) (n : ℤ) : Bool :=
  decide (turnSlotLo t ≤ n) && decide (n < turnSlotHi t)

/-- Lookup in the `speaker_map` dict (lines 79-81).  The dict maps slot
`t/100` to the speaker of the last turn written there, so the lookup finds
the last turn in iteration order that covers the slot. -/
def speakerMapLookup (turns : List DiarizationTurn) (n : ℤ) : Option String :=
  (turns.reverse.find? (fun t => coversSlot t n)).map (fun t => t.speaker)

/-- Slots scanned for a transcript segment:
`range(int(start*100), int(end*100))`. -/
def slotRange (s e : ℚ) : List ℤ :=
  (List.range (Int.toNat (pyInt (e * 100) - pyInt (s * 100)))).map
    (fun i => pyInt (s * 100) + (i : ℤ))

/-- The `speakers_in_segment` list (lines 94-97): the speaker of every
covered slot of the segment, in slot order. -/
def speakersInSegment (turns : List DiarizationTurn) (s e : ℚ) : List String :=
  (slotRange s e).filterMap (speakerMapLookup turns)

/-- Keys of `Counter(l)` in insertion order (first occurrence first). -/
def firstDedup : List String → List String
  | [] => []
  | s :: rest => s :: (firstDedup rest).filter (fun x => x ≠ s)

/-- Pick from the candidate list the element with the most occurrences in
`l`, earliest candidate winning ties. -/
def bestOf (l : List String) : List String → Option String
  | [] => none
  | s :: rest =>
      match bestOf l rest with
      | none => some s
      | some b => if l.count b > l.count s then some b else some s

/-- Python `Counter(l).most_common(1)[0][0]`: the most frequent element of
`l`, with ties broken by first occurrence; `none` when `l` is empty. -/
def mostCommon (l : List String) : Option String := bestOf l (firstDedup l)

/-- String value used in Python truthiness tests of `prev_speaker`
(`None` behaves like the empty string, which is also falsy). -/
def prevStr : Option String → String
  | none => ""
  | some s => s

/-- The `ends_with_hesitation` condition (lines 108-114): the previous text
contains an ellipsis, or its last two whitespace-delimited words coincide. -/
def endsWithHesitation (prev_text : String) : Bool :=
  containsSub prev_text "..." ||
    (decide (2 ≤ (pySplit prev_text).length) &&
      decide ((pySplit prev_text).getD ((pySplit prev_text).length - 1) "" =
        (pySplit prev_text).getD ((pySplit prev_text).length - 2) ""))

/-- The `is_completion` condition (lines 117-124): previous text hesitant,
and the current text starts (case-insensitively) with its final word or has
at most 4 words. -/
def isCompletion (prev_text text : String) : Bool :=
  endsWithHesitation prev_text &&
    (text.toLower.startsWith
        (((pySplit prev_text).getD ((pySplit prev_text).length - 1) "").toLower) ||
      decide ((pySplit text).length ≤ 4))

/-- Speaker chosen for one transcript segment (lines 93-134), given the
previous segment's speaker and (stripped) text.  `text` is the current
segment's stripped text.  The only failure is Python's `IndexError` from
`list(speaker_stats.keys())[0]` on an empty dict. -/
def chooseSpeaker (stats : List (String × Stats)) (turns : List DiarizationTurn)
    (prev_speaker : Option String) (prev_text : String)
    (start fin : ℚ) (text : String) : Except String String :=
  match mostCommon (speakersInSegment turns start fin) with
  | some sp =>
      if prev_text ≠ "" ∧ prevStr prev_speaker ≠ "" then
        if isCompletion prev_text text then
          match (stats.map Prod.fst).filter
              (fun s => s ≠ prevStr prev_speaker) with
          | [] => .ok sp
          | o :: _ => .ok o
        else .ok sp
      else .ok sp
  | none =>
      if prevStr prev_speaker ≠ "" then .ok (prevStr prev_speaker)
      else
        match stats with
        | [] => .error "list index out of range"
        | (sp0, _) :: _ => .ok sp0

/-- The segment-attribution loop (lines 84-143): one output entry per
transcript segment, threading `prev_speaker` / `prev_text`. -/
def attributeFrom (stats : List (String × Stats)) (turns : List DiarizationTurn)
    (prev_speaker : Option String) (prev_text : String) :
    List TranscriptSegment → Except String (List SpeakerSegment)
  | [] => .ok []
  | seg :: rest =>
      match chooseSpeaker stats turns prev_speaker prev_text
          seg.start seg.«end» seg.text.trim with
      | .error e => .error e
      | .ok sp =>
          match attributeFrom stats turns (some sp) seg.text.trim rest with
          | .error e => .error e
          | .ok out => .ok (⟨sp, seg.start, seg.«end», seg.text.trim⟩ :: out)

/-- Comparison used by `sorted(speaker_stats.items(), key=lambda x: x[1]["first_time"])`. -/
def statsLe (a b : String × Stats) : Bool :=
  decide (a.2.first_time ≤ b.2.first_time)

/-- The `sorted_speakers` list (lines 146-149).  Python `sorted` is a stable
sort, and any stable sort of a list by a total preorder is extensionally
unique, so the stable `List.mergeSort` computes the same list. -/
def sortedSpeakers (stats : List (String × Stats)) : List (String × Stats) :=
  stats.mergeSort statsLe

/-- The label attached to 0-based position `n`: `f"SPEAKER_{n+1}"`. -/
def speakerLabel (n : Nat) : String := "SPEAKER_" ++ toString (n + 1)

/-- The `speaker_mapping` dict comprehension (lines 151-154), enumerating
from position `n`. -/
def labelEnum (n : Nat) : List (String × Stats) → List (String × String)
  | [] => []
  | (sp, _) :: rest => (sp, speakerLabel n) :: labelEnum (n + 1) rest

/-- The full `speaker_mapping` dict: speakers sorted by `first_time`,
labelled `SPEAKER_1, SPEAKER_2, ...` in that order. -/
def speakerMapping (stats : List (String × Stats)) : List (String × String) :=
  labelEnum 0 (sortedSpeakers stats)

/-- The label-rewrite loop (lines 157-158):
`segment["speaker"] = speaker_mapping[segment["speaker"]]`; a missing key
is Python's `KeyError`. -/
def applyMapping (m : List (String × String)) :
    List SpeakerSegment → Except String (List SpeakerSegment)
  | [] => .ok []
  | s :: rest =>
      match lookupKey s.speaker m with
      | none => .error ("KeyError: " ++ s.speaker)
      | some lbl =>
          match applyMapping m rest with
          | .error e => .error e
          | .ok out => .ok ({ s with speaker := lbl } :: out)

/-- The fallback loop body (lines 166-177) starting at speaker index `idx`. -/
def fallbackFrom (idx : Nat) : List TranscriptSegment → List SpeakerSegment
  | [] => []
  | seg :: rest =>
      ⟨"SPEAKER_" ++ toString idx, seg.start, seg.«end», seg.text.trim⟩ ::
        fallbackFrom (if idx = 1 then 2 else 1) rest

/-- Fallback attribution when pyannote is unavailable: alternating
`SPEAKER_1 / SPEAKER_2` labels by segment index. -/
def fallbackSegments (segs : List TranscriptSegment) : List SpeakerSegment :=
  fallbackFrom 1 segs

/-- Message format of the except-branch (lines 186-198). -/
def errMsg (e : String) : String := "Error transcribing audio: " ++ e

/-- The error-sentinel response built in the except-branch. -/
def errorResponse (e : String) : TranscriptionResponse :=
  { segments := [⟨"ERROR", 0, 0, errMsg e⟩]
    full_transcript := errMsg e
    language := "en"
    duration := 0 }

/-- The computation of the `segments` variable (lines 61-177): the
diarization branch when a pipeline is configured (`diar = some _`),
otherwise the fallback branch; `diar = some (.error e)` models a
diarization call that raised. -/
def attributedSegments (resp : ASRResponse)
    (diar : Option (Except String (List DiarizationTurn))) :
    Except String (List SpeakerSegment) :=
  match diar with
  | some dres =>
      match dres with
      | .error e => .error e
      | .ok turns =>
          match attributeFrom (buildStats turns) turns none "" resp.segments with
          | .error e => .error e
          | .ok raw => applyMapping (speakerMapping (buildStats turns)) raw
  | none => .ok (fallbackSegments resp.segments)

/-- Everything inside the `try` block of
`transcribe_audio_with_diarization`:  `asr` is the already-computed Whisper
call (`.error` when that call raised), `diar` is `none` when no diarization
pipeline is configured, and otherwise the already-computed diarization
result. -/
def transcribeCore (asr : Except String ASRResponse)
    (diar : Option (Except String (List DiarizationTurn))) :
    Except String TranscriptionResponse :=
  match asr with
  | .error e => .error e
  | .ok resp =>
      match attributedSegments resp diar with
      | .error e => .error e
      | .ok segments =>
          .ok { segments := segments
                full_transcript := resp.text
                language := resp.language.getD "en"
                duration := ((segments.getLast?).map (fun s => s.«end»)).getD 0 }

/-- The full engine call: the `try` body, with any raised failure converted
to the single-segment error-sentinel response (lines 186-198). -/
def transcribe_audio_with_diarization (asr : Except String ASRResponse)
    (diar : Option (Except String (List DiarizationTurn))) :
    TranscriptionResponse :=
  match transcribeCore asr diar with
  | .ok r => r
  | .error e => errorResponse e

deriving instance DecidableEq for Except

/-- Sum of `end - start` over the turns of one speaker, in list order. -/
def sumDur (sp : String) (ts : List DiarizationTurn) : ℚ :=
  ((ts.filter (fun t => t.speaker == sp)).map turnDuration).sum

/-- Concrete turn list for the hesitation counterexamples: speakers `A`
and `B`, `A` first. -/
def ct5Turns : List DiarizationTurn :=
  [⟨0, 0.02, "A"⟩, ⟨0.02, 0.03, "B"⟩]

/-- Concrete segments: a hesitant segment covered by `A`, then a short
completion covering no diarized slot. -/
def ct5Segs : List TranscriptSegment :=
  [⟨0, 0.02, "we should... we should"⟩, ⟨0.05, 0.06, "go now"⟩]

/-- Concrete turn list with a single speaker `A`. -/
def ct5TurnsOne : List DiarizationTurn := [⟨0, 0.02, "A"⟩]

/-- Concrete segments: a hesitant segment, then a short completion, both
covered by the single speaker `A`. -/
def ct5SegsOne : List TranscriptSegment :=
  [⟨0, 0.01, "we should... we should"⟩, ⟨0.01, 0.02, "go now"⟩]

/-- Concrete turn list processed out of chronological order: `B` at
`[2,3]`, then `A` at `[5,6]`, then `A` at `[1,2]`; `A`'s earliest turn
start `1` precedes `B`'s earliest start `2`. -/
def ct4Turns : List DiarizationTurn := [⟨2, 3, "B"⟩, ⟨5, 6, "A"⟩, ⟨1, 2, "A"⟩]

section AssocListLemmas

variable {α : Type}

theorem lookupKey_eq_none_iff (k : String) (l : List (String × α)) :
    lookupKey k l = none ↔ k ∉ l.map Prod.fst := by
  induction l with
  | nil => simp [lookupKey]
  | cons p rest ih =>
      obtain ⟨k2, v⟩ := p
      by_cases h : k2 = k
      · simp [lookupKey, h]
      · simp [lookupKey, h, ih, Ne.symm h]

theorem lookupKey_isSome_of_mem (k : String) (l : List (String × α))
    (h : k ∈ l.map Prod.fst) : ∃ v, lookupKey k l = some v := by
  cases hl : lookupKey k l with
  | none => exact absurd ((lookupKey_eq_none_iff k l).mp hl) (by simp [h])
  | some v => exact ⟨v, rfl⟩

theorem lookupKey_some_mem {k : String} {v : α} {l : List (String × α)}
    (h : lookupKey k l = some v) : (k, v) ∈ l := by
  induction l with
  | nil => simp [lookupKey] at h
  | cons p rest ih =>
      obtain ⟨k2, v2⟩ := p
      by_cases hk : k2 = k
      · simp [lookupKey, hk] at h
        simp [hk, h]
      · simp [lookupKey, hk] at h
        exact List.mem_cons_of_mem _ (ih h)

theorem lookupKey_some_snd_mem {k : String} {v : α} {l : List (String × α)}
    (h : lookupKey k l = some v) : v ∈ l.map Prod.snd := by
  exact List.mem_map.mpr ⟨(k, v), lookupKey_some_mem h, rfl⟩

theorem lookupKey_some_fst_mem {k : String} {v : α} {l : List (String × α)}
    (h : lookupKey k l = some v) : k ∈ l.map Prod.fst := by
  exact List.mem_map.mpr ⟨(k, v), lookupKey_some_mem h, rfl⟩

theorem map_fst_updateKey (k : String) (f : α → α) (l : List (String × α)) :
    (updateKey k f l).map Prod.fst = l.map Prod.fst := by
  induction l with
  | nil => rfl
  | cons p rest ih =>
      obtain ⟨k2, v⟩ := p
      by_cases h : k2 = k
      · simp [updateKey, h]
      · simp [updateKey, h, ih]

theorem lookupKey_updateKey_self (k : String) (f : α → α) (l : List (String × α)) :
    lookupKey k (updateKey k f l) = (lookupKey k l).map f := by
  induction l with
  | nil => rfl
  | cons p rest ih =>
      obtain ⟨k2, v⟩ := p
      by_cases h : k2 = k
      · simp [updateKey, lookupKey, h]
      · simp [updateKey, lookupKey, h, ih]

theorem lookupKey_updateKey_ne {k k2 : String} (hne : k ≠ k2) (f : α → α)
    (l : List (String × α)) :
    lookupKey k2 (updateKey k f l) = lookupKey k2 l := by
  induction l with
  | nil => rfl
  | cons p rest ih =>
      obtain ⟨k3, v⟩ := p
      by_cases h : k3 = k
      · subst h
        simp [updateKey, lookupKey, hne]
      · by_cases h2 : k3 = k2
        · subst h2
          simp [updateKey, lookupKey, h]
        · simp [updateKey, lookupKey, h, h2, ih]

theorem lookupKey_append_ne {k k2 : String} (hne : k2 ≠ k) (v : α)
    (l : List (String × α)) :
    lookupKey k2 (l ++ [(k, v)]) = lookupKey k2 l := by
  induction l with
  | nil => simp [lookupKey, hne, Ne.symm hne]
  | cons p rest ih =>
      obtain ⟨k3, v3⟩ := p
      by_cases h : k3 = k2
      · simp [lookupKey, h]
      · simp [lookupKey, h, ih]

theorem lookupKey_append_self_of_none {k : String} {l : List (String × α)}
    (h : lookupKey k l = none) (v : α) :
    lookupKey k (l ++ [(k, v)]) = some v := by
  induction l with
  | nil => simp [lookupKey]
  | cons p rest ih =>
      obtain ⟨k3, v3⟩ := p
      by_cases hk : k3 = k
      · simp [lookupKey, hk] at h
      · simp [lookupKey, hk] at h ⊢
        exact ih h

end AssocListLemmas

section StatsLemmas

theorem sumDur_cons_self {t : DiarizationTurn} {sp : String} (h : t.speaker = sp)
    (ts : List DiarizationTurn) :
    sumDur sp (t :: ts) = turnDuration t + sumDur sp ts := by
  simp [sumDur, List.filter_cons, h]

theorem sumDur_cons_ne {t : DiarizationTurn} {sp : String} (h : ¬ t.speaker = sp)
    (ts : List DiarizationTurn) : sumDur sp (t :: ts) = sumDur sp ts := by
  simp [sumDur, List.filter_cons, h]

theorem map_fst_statsAdd (acc : List (String × Stats)) (t : DiarizationTurn) :
    (statsAdd acc t).map Prod.fst =
      match lookupKey t.speaker acc with
      | some _ => acc.map Prod.fst
      | none => acc.map Prod.fst ++ [t.speaker] := by
  cases h : lookupKey t.speaker acc with
  | some st => simp [statsAdd, h, map_fst_updateKey]
  | none => simp [statsAdd, h, map_fst_updateKey]

theorem lookupKey_statsAdd_self (acc : List (String × Stats)) (t : DiarizationTurn) :
    lookupKey t.speaker (statsAdd acc t) =
      some (match lookupKey t.speaker acc with
            | some st => ⟨st.first_time, st.total_time + turnDuration t⟩
            | none => ⟨t.start, 0 + turnDuration t⟩) := by
  cases h : lookupKey t.speaker acc with
  | some st => simp [statsAdd, h, lookupKey_updateKey_self]
  | none =>
      simp [statsAdd, h, lookupKey_updateKey_self,
        lookupKey_append_self_of_none h]

theorem lookupKey_statsAdd_ne {sp : String} {t : DiarizationTurn}
    (h : sp ≠ t.speaker) (acc : List (String × Stats)) :
    lookupKey sp (statsAdd acc t) = lookupKey sp acc := by
  cases hl : lookupKey t.speaker acc with
  | some st => simp [statsAdd, hl, lookupKey_updateKey_ne (Ne.symm h)]
  | none =>
      simp [statsAdd, hl, lookupKey_updateKey_ne (Ne.symm h),
        lookupKey_append_ne h]

theorem lookupKey_buildStatsFrom_some (sp : String) (st : Stats)
    (ts : List DiarizationTurn) :
    ∀ acc : List (String × Stats), lookupKey sp acc = some st →
      lookupKey sp (buildStatsFrom acc ts) =
        some ⟨st.first_time, st.total_time + sumDur sp ts⟩ := by
  induction ts generalizing st with
  | nil =>
      intro acc hacc
      simp [buildStatsFrom, hacc, sumDur]
  | cons t ts ih =>
      intro acc hacc
      rw [buildStatsFrom]
      by_cases hsp : t.speaker = sp
      · subst hsp
        have hself := lookupKey_statsAdd_self acc t
        rw [hacc] at hself
        rw [ih ⟨st.first_time, st.total_time + turnDuration t⟩ _ hself]
        rw [sumDur_cons_self rfl]
        simp [add_assoc]
      · have := lookupKey_statsAdd_ne (Ne.symm hsp) acc
        rw [ih st _ (this.trans hacc), sumDur_cons_ne hsp]

theorem lookupKey_buildStatsFrom_none (sp : String) (ts : List DiarizationTurn) :
    ∀ acc : List (String × Stats), lookupKey sp acc = none →
      lookupKey sp (buildStatsFrom acc ts) =
        ((ts.filter (fun t => t.speaker == sp)).head?).map
          (fun t0 => ⟨t0.start, sumDur sp ts⟩) := by
  induction ts with
  | nil =>
      intro acc hacc
      simp [buildStatsFrom, hacc]
  | cons t ts ih =>
      intro acc hacc
      rw [buildStatsFrom]
      by_cases hsp : t.speaker = sp
      · subst hsp
        have hself := lookupKey_statsAdd_self acc t
        rw [hacc] at hself
        rw [lookupKey_buildStatsFrom_some _ _ _ _ hself]
        rw [sumDur_cons_self rfl]
        simp [List.filter_cons, add_assoc]
      · have := lookupKey_statsAdd_ne (Ne.symm hsp) acc
        rw [ih _ (this.trans hacc)]
        simp [List.filter_cons, hsp, sumDur_cons_ne hsp]

theorem mem_keys_buildStatsFrom (x : String) (ts : List DiarizationTurn) :
    ∀ acc : List (String × Stats),
      (x ∈ (buildStatsFrom acc ts).map Prod.fst ↔
        x ∈ acc.map Prod.fst ∨ x ∈ ts.map (fun t => t.speaker)) := by
  induction ts with
  | nil => intro acc; simp [buildStatsFrom]
  | cons t ts ih =>
      intro acc
      rw [buildStatsFrom, ih]
      cases h : lookupKey t.speaker acc with
      | some st =>
          have hmem : t.speaker ∈ acc.map Prod.fst := lookupKey_some_fst_mem h
          simp only [map_fst_statsAdd, h, List.map_cons, List.mem_cons]
          constructor
          · rintro (hx | hx)
            · exact Or.inl hx
            · exact Or.inr (Or.inr hx)
          · rintro (hx | rfl | hx)
            · exact Or.inl hx
            · exact Or.inl hmem
            · exact Or.inr hx
      | none =>
          simp only [map_fst_statsAdd, h, List.map_cons, List.mem_cons,
            List.mem_append, List.mem_singleton]
          tauto

theorem mem_keys_buildStats (x : String) (turns : List DiarizationTurn) :
    x ∈ (buildStats turns).map Prod.fst ↔ x ∈ turns.map (fun t => t.speaker) := by
  rw [buildStats, mem_keys_buildStatsFrom]
  simp

theorem nodup_keys_buildStatsFrom (ts : List DiarizationTurn) :
    ∀ acc : List (String × Stats), (acc.map Prod.fst).Nodup →
      ((buildStatsFrom acc ts).map Prod.fst).Nodup := by
  induction ts with
  | nil => intro acc h; exact h
  | cons t ts ih =>
      intro acc h
      rw [buildStatsFrom]
      apply ih
      cases hl : lookupKey t.speaker acc with
      | some st => simpa [map_fst_statsAdd, hl] using h
      | none =>
          have hnot : t.speaker ∉ acc.map Prod.fst :=
            (lookupKey_eq_none_iff _ _).mp hl
          simp only [map_fst_statsAdd, hl]
          rw [List.nodup_append]
          refine ⟨h, List.nodup_singleton _, ?_⟩
          intro a ha hb
          simp only [List.mem_singleton] at hb
          exact hnot (hb ▸ ha)

theorem nodup_keys_buildStats (turns : List DiarizationTurn) :
    ((buildStats turns).map Prod.fst).Nodup :=
  nodup_keys_buildStatsFrom turns [] (by simp)

end StatsLemmas

section VoteLemmas

theorem mem_firstDedup {x : String} : ∀ l : List String, x ∈ firstDedup l → x ∈ l := by
  intro l
  induction l with
  | nil => simp [firstDedup]
  | cons s rest ih =>
      intro h
      simp only [firstDedup, List.mem_cons] at h
      cases h with
      | inl h => simp [h]
      | inr h => exact List.mem_cons_of_mem _ (ih (List.mem_of_mem_filter h))

theorem bestOf_mem {l : List String} {sp : String} :
    ∀ cands : List String, bestOf l cands = some sp → sp ∈ cands := by
  intro cands
  induction cands with
  | nil => intro h; simp [bestOf] at h
  | cons s rest ih =>
      intro h
      rw [bestOf] at h
      cases hb : bestOf l rest with
      | none =>
          rw [hb] at h
          simp only [Option.some.injEq] at h
          simp [h]
      | some b =>
          rw [hb] at h
          by_cases hc : l.count b > l.count s
          · simp only [if_pos hc, Option.some.injEq] at h
            exact List.mem_cons_of_mem _ (ih (h ▸ hb))
          · simp only [if_neg hc, Option.some.injEq] at h
            simp [h]

theorem mostCommon_mem {l : List String} {sp : String}
    (h : mostCommon l = some sp) : sp ∈ l :=
  mem_firstDedup l (bestOf_mem _ h)

theorem speakersInSegment_mem {turns : List DiarizationTurn} {a b : ℚ}
    {sp : String} (h : sp ∈ speakersInSegment turns a b) :
    ∃ t ∈ turns, t.speaker = sp := by
  simp only [speakersInSegment, List.mem_filterMap] at h
  obtain ⟨n, _, hn⟩ := h
  simp only [speakerMapLookup, Option.map_eq_some'] at hn
  obtain ⟨t, hfind, hsp⟩ := hn
  exact ⟨t, List.mem_reverse.mp (List.mem_of_find?_eq_some hfind), hsp⟩

theorem speakersInSegment_nil (a b : ℚ) : speakersInSegment [] a b = [] := by
  simp [speakersInSegment, speakerMapLookup, List.filterMap_eq_nil_iff]

theorem chooseSpeaker_total (turns : List DiarizationTurn)
    (prev : Option String) (prev_text : String) (a b : ℚ) (text : String)
    (hne : buildStats turns ≠ [])
    (hprev : prevStr prev ≠ "" → prevStr prev ∈ (buildStats turns).map Prod.fst) :
    ∃ sp, chooseSpeaker (buildStats turns) turns prev prev_text a b text = .ok sp ∧
      sp ∈ (buildStats turns).map Prod.fst := by
  cases hmc : mostCommon (speakersInSegment turns a b) with
  | some sp0 =>
      have hsp0 : sp0 ∈ (buildStats turns).map Prod.fst := by
        obtain ⟨t, ht, hts⟩ := speakersInSegment_mem (mostCommon_mem hmc)
        exact (mem_keys_buildStats _ _).mpr (List.mem_map.mpr ⟨t, ht, hts⟩)
      by_cases hc : prev_text ≠ "" ∧ prevStr prev ≠ ""
      · by_cases hcmp : isCompletion prev_text text = true
        · cases hfil : ((buildStats turns).map Prod.fst).filter
              (fun s => s ≠ prevStr prev) with
          | nil =>
              refine ⟨sp0, ?_, hsp0⟩
              simp only [chooseSpeaker, hmc]
              rw [if_pos hc, if_pos hcmp, hfil]
          | cons o os =>
              refine ⟨o, ?_, ?_⟩
              · simp only [chooseSpeaker, hmc]
                rw [if_pos hc, if_pos hcmp, hfil]
              · have ho : o ∈ ((buildStats turns).map Prod.fst).filter
                    (fun s => s ≠ prevStr prev) := by
                  rw [hfil]
                  exact List.mem_cons_self o os
                exact List.mem_of_mem_filter ho
        · refine ⟨sp0, ?_, hsp0⟩
          simp only [chooseSpeaker, hmc]
          rw [if_pos hc, if_neg hcmp]
      · refine ⟨sp0, ?_, hsp0⟩
        simp only [chooseSpeaker, hmc]
        rw [if_neg hc]
  | none =>
      by_cases hp : prevStr prev ≠ ""
      · exact ⟨prevStr prev, by simp [chooseSpeaker, hmc, hp], hprev hp⟩
      · cases hst : buildStats turns with
        | nil => exact absurd hst hne
        | cons p rest =>
            obtain ⟨k, v⟩ := p
            refine ⟨k, by simp [chooseSpeaker, hmc, hp, hst], by simp [hst]⟩

theorem attributeFrom_total (turns : List DiarizationTurn)
    (hne : buildStats turns ≠ []) :
    ∀ (segs : List TranscriptSegment) (prev : Option String) (prev_text : String),
      (prevStr prev ≠ "" → prevStr prev ∈ (buildStats turns).map Prod.fst) →
      ∃ out, attributeFrom (buildStats turns) turns prev prev_text segs = .ok out ∧
        ∀ s ∈ out, s.speaker ∈ (buildStats turns).map Prod.fst := by
  intro segs
  induction segs with
  | nil =>
      intro prev pt _
      exact ⟨[], rfl, by simp⟩
  | cons seg rest ih =>
      intro prev pt hprev
      obtain ⟨sp, hsp, hspmem⟩ :=
        chooseSpeaker_total turns prev pt seg.start seg.«end» seg.text.trim hne hprev
      obtain ⟨out, hout, hmem⟩ := ih (some sp) seg.text.trim (fun _ => hspmem)
      refine ⟨⟨sp, seg.start, seg.«end», seg.text.trim⟩ :: out, ?_, ?_⟩
      · simp only [attributeFrom, hsp, hout]
      · intro s hs
        rcases List.mem_cons.mp hs with rfl | hs
        · exact hspmem
        · exact hmem s hs

end VoteLemmas

section LabelLemmas

theorem statsLe_trans : ∀ a b c : String × Stats,
    statsLe a b = true → statsLe a c = true → statsLe a c = true :=
  fun _ _ _ _ h => h

theorem statsLe_trans' : ∀ a b c : String × Stats,
    statsLe a b = true → statsLe b c = true → statsLe a c = true := by
  intro a b c hab hbc
  simp only [statsLe, decide_eq_true_eq] at *
  exact le_trans hab hbc

theorem statsLe_total : ∀ a b : String × Stats,
    (statsLe a b || statsLe b a) = true := by
  intro a b
  simp only [statsLe, Bool.or_eq_true, decide_eq_true_eq]
  exact le_total _ _

theorem sortedSpeakers_perm (stats : List (String × Stats)) :
    (sortedSpeakers stats).Perm stats :=
  List.mergeSort_perm stats statsLe

theorem sortedSpeakers_pairwise (stats : List (String × Stats)) :
    List.Pairwise (fun a b => statsLe a b = true) (sortedSpeakers stats) :=
  List.sorted_mergeSort statsLe_trans' statsLe_total stats

theorem map_fst_labelEnum : ∀ (n : Nat) (l : List (String × Stats)),
    (labelEnum n l).map Prod.fst = l.map Prod.fst := by
  intro n l
  induction l generalizing n with
  | nil => rfl
  | cons p rest ih =>
      obtain ⟨k, v⟩ := p
      simp [labelEnum, ih]

theorem map_snd_labelEnum : ∀ (n : Nat) (l : List (String × Stats)),
    (labelEnum n l).map Prod.snd =
      (List.range l.length).map (fun i => speakerLabel (n + i)) := by
  intro n l
  induction l generalizing n with
  | nil => rfl
  | cons p rest ih =>
      obtain ⟨k, v⟩ := p
      simp only [labelEnum, List.map_cons, List.length_cons,
        List.range_succ_eq_map, ih (n + 1), List.map_map]
      congr 1
      simp only [List.map_inj_left, List.mem_range, Function.comp_apply]
      intro a ha
      have h2 : n + 1 + a = n + (a + 1) := by omega
      rw [h2]

theorem lookupKey_labelEnum : ∀ (l : List (String × Stats)),
    (l.map Prod.fst).Nodup →
    ∀ (n i : Nat) (h : i < l.length) (A : String) (sA : Stats),
      l.get ⟨i, h⟩ = (A, sA) →
      lookupKey A (labelEnum n l) = some (speakerLabel (n + i)) := by
  intro l
  induction l with
  | nil =>
      intro _ n i h
      simp at h
  | cons p rest ih =>
      intro hnd n i h A sA hget
      obtain ⟨k, v⟩ := p
      cases i with
      | zero =>
          simp only [List.get] at hget
          cases hget
          simp [labelEnum, lookupKey]
      | succ i =>
          simp only [List.get] at hget
          have hmem : (A, sA) ∈ rest := hget ▸ rest.get_mem i _
          have hA : A ∈ rest.map Prod.fst :=
            List.mem_map.mpr ⟨(A, sA), hmem, rfl⟩
          simp only [List.map_cons, List.nodup_cons] at hnd
          have hk : k ≠ A := fun he => hnd.1 (he ▸ hA)
          simp only [labelEnum, lookupKey, hk, if_false]
          rw [ih hnd.2 (n + 1) i _ A sA hget]
          exact congrArg (fun m => some (speakerLabel m)) (by omega)

theorem lookupKey_speakerMapping_total {stats : List (String × Stats)}
    {sp : String} (h : sp ∈ stats.map Prod.fst) :
    ∃ lbl, lookupKey sp (speakerMapping stats) = some lbl := by
  apply lookupKey_isSome_of_mem
  rw [speakerMapping, map_fst_labelEnum]
  exact ((sortedSpeakers_perm stats).map Prod.fst).mem_iff.mpr h

theorem applyMapping_total (stats : List (String × Stats)) :
    ∀ segs : List SpeakerSegment,
      (∀ s ∈ segs, s.speaker ∈ stats.map Prod.fst) →
      ∃ out, applyMapping (speakerMapping stats) segs = .ok out := by
  intro segs
  induction segs with
  | nil => intro _; exact ⟨[], rfl⟩
  | cons s rest ih =>
      intro h
      obtain ⟨lbl, hlbl⟩ := lookupKey_speakerMapping_total (h s (by simp))
      obtain ⟨out, hout⟩ := ih (fun x hx => h x (List.mem_cons_of_mem _ hx))
      exact ⟨{ s with speaker := lbl } :: out,
        by simp only [applyMapping, hlbl, hout]⟩

end LabelLemmas

section ProjectionLemmas

theorem attributeFrom_proj (stats : List (String × Stats))
    (turns : List DiarizationTurn) :
    ∀ (segs : List TranscriptSegment) (prev : Option String) (pt : String)
      (out : List SpeakerSegment),
      attributeFrom stats turns prev pt segs = .ok out →
      out.map (fun s => (s.start, s.«end», s.text)) =
        segs.map (fun s => (s.start, s.«end», s.text.trim)) := by
  intro segs
  induction segs with
  | nil =>
      intro prev pt out h
      simp only [attributeFrom] at h
      injection h with h2
      subst h2
      rfl
  | cons seg rest ih =>
      intro prev pt out h
      simp only [attributeFrom] at h
      cases hcs : chooseSpeaker stats turns prev pt seg.start seg.«end»
          seg.text.trim with
      | error e => simp [hcs] at h
      | ok sp =>
          simp only [hcs] at h
          cases hrec : attributeFrom stats turns (some sp) seg.text.trim rest with
          | error e => simp [hrec] at h
          | ok out2 =>
              simp only [hrec] at h
              injection h with h2
              subst h2
              simp [ih _ _ _ hrec]

theorem applyMapping_proj (m : List (String × String)) :
    ∀ (segs out : List SpeakerSegment), applyMapping m segs = .ok out →
      out.map (fun s => (s.start, s.«end», s.text)) =
        segs.map (fun s => (s.start, s.«end», s.text)) := by
  intro segs
  induction segs with
  | nil =>
      intro out h
      simp only [applyMapping] at h
      injection h with h2
      subst h2
      rfl
  | cons s rest ih =>
      intro out h
      simp only [applyMapping] at h
      cases hl : lookupKey s.speaker m with
      | none => simp [hl] at h
      | some lbl =>
          simp only [hl] at h
          cases hrec : applyMapping m rest with
          | error e => simp [hrec] at h
          | ok out2 =>
              simp only [hrec] at h
              injection h with h2
              subst h2
              simp [ih _ hrec]

theorem applyMapping_speakers (m : List (String × String)) :
    ∀ (segs out : List SpeakerSegment), applyMapping m segs = .ok out →
      ∀ s ∈ out, s.speaker ∈ m.map Prod.snd := by
  intro segs
  induction segs with
  | nil =>
      intro out h
      simp only [applyMapping] at h
      injection h with h2
      subst h2
      simp
  | cons s rest ih =>
      intro out h
      simp only [applyMapping] at h
      cases hl : lookupKey s.speaker m with
      | none => simp [hl] at h
      | some lbl =>
          simp only [hl] at h
          cases hrec : applyMapping m rest with
          | error e => simp [hrec] at h
          | ok out2 =>
              simp only [hrec] at h
              injection h with h2
              subst h2
              intro x hx
              rcases List.mem_cons.mp hx with rfl | hx
              · exact lookupKey_some_snd_mem hl
              · exact ih _ hrec x hx

theorem fallbackFrom_proj : ∀ (idx : Nat) (segs : List TranscriptSegment),
    (fallbackFrom idx segs).map (fun s => (s.start, s.«end», s.text)) =
      segs.map (fun s => (s.start, s.«end», s.text.trim)) := by
  intro idx segs
  induction segs generalizing idx with
  | nil => rfl
  | cons seg rest ih => simp [fallbackFrom, ih]

theorem fallbackFrom_length : ∀ (idx : Nat) (segs : List TranscriptSegment),
    (fallbackFrom idx segs).length = segs.length := by
  intro idx segs
  induction segs generalizing idx with
  | nil => rfl
  | cons seg rest ih => simp [fallbackFrom, ih]

theorem fallback_label_one : "SPEAKER_" ++ toString (1 : Nat) = "SPEAKER_1" := by
  decide

theorem fallback_label_two : "SPEAKER_" ++ toString (2 : Nat) = "SPEAKER_2" := by
  decide

theorem fallbackFrom_speaker : ∀ (segs : List TranscriptSegment) (i : Nat),
    ((fallbackFrom 1 segs)[i]?.map (fun s => s.speaker) =
        (segs[i]?).map (fun _ => if i % 2 = 0 then "SPEAKER_1" else "SPEAKER_2")) ∧
    ((fallbackFrom 2 segs)[i]?.map (fun s => s.speaker) =
        (segs[i]?).map (fun _ => if i % 2 = 0 then "SPEAKER_2" else "SPEAKER_1")) := by
  intro segs
  induction segs with
  | nil => intro i; simp [fallbackFrom]
  | cons seg rest ih =>
      intro i
      cases i with
      | zero => simp [fallbackFrom, fallback_label_one, fallback_label_two]
      | succ i =>
          have h1 := (ih i).1
          have h2 := (ih i).2
          by_cases hp : i % 2 = 0
          · have hp1 : ¬ (i + 1) % 2 = 0 := by omega
            rw [if_pos hp] at h1 h2
            constructor
            · simpa [fallbackFrom, hp1] using h2
            · simpa [fallbackFrom, hp1] using h1
          · have hp1 : (i + 1) % 2 = 0 := by omega
            rw [if_neg hp] at h1 h2
            constructor
            · simpa [fallbackFrom, hp1] using h2
            · simpa [fallbackFrom, hp1] using h1

end ProjectionLemmas

/-- C1: if the upstream transcription call or the diarization call raises,
the engine returns the error-sentinel Result — exactly one segment, speaker
`"ERROR"`, duration `0`, language defaulted to `"en"`, segment text and
full transcript both carrying the failure description — and the failure is
never propagated (the modelled call is a total function). -/
theorem claim_C1_failure_containment (e : String)
    (d : Option (Except String (List DiarizationTurn))) (r : ASRResponse) :
    transcribe_audio_with_diarization (.error e) d = errorResponse e ∧
    transcribe_audio_with_diarization (.ok r) (some (.error e)) = errorResponse e ∧
    (errorResponse e).segments = [⟨"ERROR", 0, 0, errMsg e⟩] ∧
    (errorResponse e).duration = 0 ∧
    (errorResponse e).language = "en" ∧
    (errorResponse e).full_transcript = errMsg e :=
  ⟨rfl, rfl, rfl, rfl, rfl, rfl⟩

/-- C9: when the diarization pipeline is configured but returns zero turns,
any non-empty transcript makes the first-segment fallback index into the
empty SpeakerStats; the failure is caught at the engine boundary and the
single-segment error-sentinel Result is returned. -/
theorem claim_C9_empty_diarization (r : ASRResponse) (h : r.segments ≠ []) :
    transcribe_audio_with_diarization (.ok r) (some (.ok [])) =
      errorResponse "list index out of range" := by
  obtain ⟨seg, rest, hsegs⟩ : ∃ seg rest, r.segments = seg :: rest := by
    cases hs : r.segments with
    | nil => exact absurd hs h
    | cons a l => exact ⟨a, l, rfl⟩
  have hchoose : chooseSpeaker (buildStats []) [] none "" seg.start seg.«end»
      seg.text.trim = .error "list index out of range" := by
    have hsis : speakersInSegment [] seg.start seg.«end» = [] :=
      speakersInSegment_nil _ _
    simp [chooseSpeaker, hsis, mostCommon, firstDedup, bestOf, buildStats,
      buildStatsFrom, prevStr]
  have hattr : attributeFrom (buildStats []) [] none "" r.segments =
      .error "list index out of range" := by
    rw [hsegs]
    simp only [attributeFrom, hchoose]
  rw [transcribe_audio_with_diarization]
  simp only [transcribeCore, attributedSegments, hattr]

/-- C9 witness: a concrete one-segment transcript with a configured,
zero-turn diarization result yields the error sentinel. -/
theorem claim_C9_witness :
    transcribe_audio_with_diarization (.ok ⟨[⟨0, 1, "hi"⟩], "t", none⟩)
        (some (.ok [])) = errorResponse "list index out of range" :=
  claim_C9_empty_diarization ⟨[⟨0, 1, "hi"⟩], "t", none⟩ (by decide)

/-- C7: in fallback mode (no diarization), the output speaker labels
strictly alternate by segment index — `SPEAKER_1` at even 0-based indices,
`SPEAKER_2` at odd ones — regardless of the segments' timing values. -/
theorem claim_C7_fallback_alternation (segs : List TranscriptSegment) (i : Nat)
    (h : i < (fallbackSegments segs).length) :
    ((fallbackSegments segs).get ⟨i, h⟩).speaker =
      if i % 2 = 0 then "SPEAKER_1" else "SPEAKER_2" := by
  have hlen : i < segs.length := by
    have := fallbackFrom_length 1 segs
    rw [fallbackSegments] at h
    omega
  have h1 := (fallbackFrom_speaker segs i).1
  rw [List.getElem?_eq_getElem hlen] at h1
  have hlen2 : i < (fallbackFrom 1 segs).length := by
    rw [fallbackFrom_length 1 segs]
    exact hlen
  rw [List.getElem?_eq_getElem hlen2] at h1
  simp only [Option.map_some', Option.some.injEq] at h1
  rw [fallbackSegments] at *
  simpa [List.get_eq_getElem] using h1

/-- C7 witness: three concrete segments; the third (index 2) is labelled
`SPEAKER_1`. -/
theorem claim_C7_witness :
    ((fallbackSegments [⟨0, 1, "a"⟩, ⟨1, 2, "b"⟩, ⟨2, 3, "c"⟩]).get
        ⟨2, by decide⟩).speaker =
      if 2 % 2 = 0 then "SPEAKER_1" else "SPEAKER_2" :=
  claim_C7_fallback_alternation [⟨0, 1, "a"⟩, ⟨1, 2, "b"⟩, ⟨2, 3, "c"⟩] 2
    (by decide)

/-- C2 counterexample: with raw ASR text `" hi "` the engine's output
segment text is the stripped `"hi"`, which differs from the input text, so
the output does not carry the same `text` values as the input. -/
theorem claim_C2_counterexample :
    (transcribe_audio_with_diarization
        (.ok ⟨[⟨0, 1, " hi "⟩], "t", some "en"⟩) none).segments.map
      (fun s => s.text) = ["hi"] ∧ ("hi" : String) ≠ " hi " := by
  constructor
  · with_unfolding_all decide
  · decide

/-- C2 (amended): for every successful run, in both the diarization and the
fallback path, the output has exactly one segment per input segment, in
order, with the same `start` and `end`, and with `text` equal to the input
text stripped of surrounding whitespace. -/
theorem claim_C2_ordering (asr : ASRResponse)
    (d : Option (Except String (List DiarizationTurn)))
    (res : TranscriptionResponse)
    (h : transcribeCore (.ok asr) d = .ok res) :
    res.segments.length = asr.segments.length ∧
    res.segments.map (fun s => (s.start, s.«end», s.text)) =
      asr.segments.map (fun s => (s.start, s.«end», s.text.trim)) := by
  have hproj : res.segments.map (fun s => (s.start, s.«end», s.text)) =
      asr.segments.map (fun s => (s.start, s.«end», s.text.trim)) := by
    cases hseg : attributedSegments asr d with
    | error e => simp [transcribeCore, hseg] at h
    | ok segments =>
        simp only [transcribeCore, hseg] at h
        injection h with h2
        subst h2
        cases d with
        | none =>
            simp only [attributedSegments] at hseg
            injection hseg with h3
            subst h3
            exact fallbackFrom_proj 1 asr.segments
        | some dres =>
            cases dres with
            | error e => simp [attributedSegments] at hseg
            | ok turns =>
                simp only [attributedSegments] at hseg
                cases hattr : attributeFrom (buildStats turns) turns none ""
                    asr.segments with
                | error e => simp [hattr] at hseg
                | ok raw =>
                    simp only [hattr] at hseg
                    calc segments.map (fun s => (s.start, s.«end», s.text))
                        = raw.map (fun s => (s.start, s.«end», s.text)) :=
                          applyMapping_proj _ _ _ hseg
                      _ = asr.segments.map
                            (fun s => (s.start, s.«end», s.text.trim)) :=
                          attributeFrom_proj _ _ _ _ _ _ hattr
  refine ⟨?_, hproj⟩
  have hlen := congrArg List.length hproj
  simpa using hlen

/-- C2 witness: a concrete fallback run showing the amended ordering
property at work. -/
theorem claim_C2_witness :
    (⟨[⟨"SPEAKER_1", 0, 1, "hi"⟩], "t", "en", 1⟩ :
        TranscriptionResponse).segments.length =
      ([(⟨0, 1, " hi "⟩ : TranscriptSegment)]).length ∧
    (⟨[⟨"SPEAKER_1", 0, 1, "hi"⟩], "t", "en", 1⟩ :
        TranscriptionResponse).segments.map
        (fun s => (s.start, s.«end», s.text)) =
      ([(⟨0, 1, " hi "⟩ : TranscriptSegment)]).map
        (fun s => (s.start, s.«end», s.text.trim)) :=
  claim_C2_ordering ⟨[⟨0, 1, " hi "⟩], "t", some "en"⟩ none _
    (by with_unfolding_all decide)

/-- C8: every successful run returns the core's Result unchanged, whose
`duration` is the `end` of the last attributed segment (or `0` when there
is none); an empty transcript-segment list yields empty segments, duration
`0`, and the ASR full text passed through unchanged, in the fallback path
and in the diarization path alike. -/
theorem claim_C8_duration :
    (∀ (asr : Except String ASRResponse)
        (d : Option (Except String (List DiarizationTurn)))
        (res : TranscriptionResponse), transcribeCore asr d = .ok res →
        transcribe_audio_with_diarization asr d = res ∧
        res.duration = ((res.segments.getLast?).map (fun s => s.«end»)).getD 0) ∧
    (∀ (ft : String) (lang : Option String),
        transcribe_audio_with_diarization (.ok ⟨[], ft, lang⟩) none =
          ⟨[], ft, lang.getD "en", 0⟩) ∧
    (∀ (ft : String) (lang : Option String) (turns : List DiarizationTurn),
        transcribe_audio_with_diarization (.ok ⟨[], ft, lang⟩)
            (some (.ok turns)) =
          ⟨[], ft, lang.getD "en", 0⟩) := by
  refine ⟨?_, ?_, ?_⟩
  · intro asr d res h
    have h0 := h
    constructor
    · simp only [transcribe_audio_with_diarization, h0]
    · cases asr with
      | error e => simp [transcribeCore] at h
      | ok resp =>
          cases hseg : attributedSegments resp d with
          | error e => simp [transcribeCore, hseg] at h
          | ok segments =>
              simp only [transcribeCore, hseg] at h
              injection h with h2
              subst h2
              rfl
  · intro ft lang
    rfl
  · intro ft lang turns
    rfl

/-- C8 witness: concrete successful runs exercising the duration rule and
the empty-input pass-through. -/
theorem claim_C8_witness :
    (transcribe_audio_with_diarization (.ok ⟨[⟨0, 1, "hi"⟩], "t", some "fr"⟩)
        none = ⟨[⟨"SPEAKER_1", 0, 1, "hi"⟩], "t", "fr", 1⟩ ∧
      (⟨[⟨"SPEAKER_1", 0, 1, "hi"⟩], "t", "fr", 1⟩ :
          TranscriptionResponse).duration =
        ((((⟨[⟨"SPEAKER_1", 0, 1, "hi"⟩], "t", "fr", 1⟩ :
            TranscriptionResponse).segments.getLast?).map
          (fun s => s.«end»)).getD 0)) :=
  claim_C8_duration.1 (.ok ⟨[⟨0, 1, "hi"⟩], "t", some "fr"⟩) none
    ⟨[⟨"SPEAKER_1", 0, 1, "hi"⟩], "t", "fr", 1⟩ (by with_unfolding_all decide)

/-- C3 counterexample: when speaker `A`'s turns are processed out of
chronological order, the recorded `first_time` is the start of the
first-processed turn (`5`), not the minimum start over `A`'s turns (`1`). -/
theorem claim_C3_counterexample :
    (lookupKey "A" (buildStats [⟨5, 6, "A"⟩, ⟨1, 2, "A"⟩])).map
        (fun st => st.first_time) = some 5 ∧
    (([(⟨5, 6, "A"⟩ : DiarizationTurn), ⟨1, 2, "A"⟩].map
        (fun t => t.start)).min? = some 1) ∧
    ¬ ((5 : ℚ) = 1) := by
  refine ⟨?_, ?_, ?_⟩ <;> with_unfolding_all decide

/-- C3 (amended): for every speaker recorded in SpeakerStats, `total_time`
is the sum of `end - start` over that speaker's turns; `first_time` is the
start of the speaker's first-processed turn, and whenever the turn list is
processed in chronological (non-decreasing start) order it is a lower bound
on — hence the minimum of — the starts of that speaker's turns. -/
theorem claim_C3_stats (turns : List DiarizationTurn) (sp : String) (st : Stats)
    (h : lookupKey sp (buildStats turns) = some st) :
    st.total_time = sumDur sp turns ∧
    ((turns.filter (fun t => t.speaker == sp)).head?).map (fun t => t.start) =
      some st.first_time ∧
    (List.Pairwise (fun a b => a.start ≤ b.start) turns →
      ∀ t ∈ turns, t.speaker = sp → st.first_time ≤ t.start) := by
  have hb := lookupKey_buildStatsFrom_none sp turns [] rfl
  rw [buildStats] at h
  rw [hb] at h
  cases hf : (turns.filter (fun t => t.speaker == sp)).head? with
  | none => rw [hf] at h; simp at h
  | some t0 =>
      rw [hf] at h
      simp only [Option.map_some'] at h
      injection h with h2
      subst h2
      refine ⟨rfl, by simp [hf], ?_⟩
      intro hsort t ht hts
      have hmemf : t ∈ turns.filter (fun t => t.speaker == sp) :=
        List.mem_filter.mpr ⟨ht, by simp [hts]⟩
      have hpf : List.Pairwise (fun a b => a.start ≤ b.start)
          (turns.filter (fun t => t.speaker == sp)) :=
        List.Pairwise.filter _ hsort
      cases hfl : turns.filter (fun t => t.speaker == sp) with
      | nil => rw [hfl] at hmemf; simp at hmemf
      | cons f0 ftail =>
          rw [hfl] at hf hmemf hpf
          simp only [List.head?_cons, Option.some.injEq] at hf
          subst hf
          rcases List.mem_cons.mp hmemf with rfl | hmem2
          · exact le_refl _
          · exact (List.pairwise_cons.mp hpf).1 t hmem2

/-- C3 witness: two chronologically ordered turns of speaker `A`; the
recorded stats are `first_time = 0`, `total_time = 2`, and `0` is a lower
bound on the starts. -/
theorem claim_C3_witness :
    (⟨0, 2⟩ : Stats).total_time = sumDur "A" [⟨0, 1, "A"⟩, ⟨2, 3, "A"⟩] ∧
    ((([(⟨0, 1, "A"⟩ : DiarizationTurn), ⟨2, 3, "A"⟩]).filter
        (fun t => t.speaker == "A")).head?).map (fun t => t.start) =
      some (⟨0, 2⟩ : Stats).first_time ∧
    (List.Pairwise (fun a b => a.start ≤ b.start)
        [(⟨0, 1, "A"⟩ : DiarizationTurn), ⟨2, 3, "A"⟩] →
      ∀ t ∈ [(⟨0, 1, "A"⟩ : DiarizationTurn), ⟨2, 3, "A"⟩],
        t.speaker = "A" → (⟨0, 2⟩ : Stats).first_time ≤ t.start) :=
  claim_C3_stats [⟨0, 1, "A"⟩, ⟨2, 3, "A"⟩] "A" ⟨0, 2⟩
    (by with_unfolding_all decide)

/-- Helper for C4: a recorded `first_time` is the start of one of the
speaker's own turns, and under chronological (non-decreasing start)
processing it is a lower bound on the starts of all of that speaker's
turns. -/
theorem buildStats_first_time_spec (turns : List DiarizationTurn) (sp : String)
    (st : Stats) (h : lookupKey sp (buildStats turns) = some st) :
    ∃ t0 ∈ turns, t0.speaker = sp ∧ st.first_time = t0.start ∧
      (List.Pairwise (fun a b => a.start ≤ b.start) turns →
        ∀ t ∈ turns, t.speaker = sp → st.first_time ≤ t.start) := by
  have hb := lookupKey_buildStatsFrom_none sp turns [] rfl
  rw [buildStats] at h
  rw [hb] at h
  cases hf : (turns.filter (fun t => t.speaker == sp)).head? with
  | none => rw [hf] at h; simp at h
  | some t0 =>
      rw [hf] at h
      simp only [Option.map_some'] at h
      injection h with h2
      subst h2
      have hmemf0 : t0 ∈ turns.filter (fun t => t.speaker == sp) := by
        cases hfl : turns.filter (fun t => t.speaker == sp) with
        | nil => rw [hfl] at hf; simp at hf
        | cons a l =>
            rw [hfl] at hf
            simp only [List.head?_cons, Option.some.injEq] at hf
            subst hf
            exact List.mem_cons_self _ _
      obtain ⟨ht0, hsp0⟩ := List.mem_filter.mp hmemf0
      refine ⟨t0, ht0, by simpa using hsp0, rfl, ?_⟩
      intro hsort t ht hts
      have hmemf : t ∈ turns.filter (fun t => t.speaker == sp) :=
        List.mem_filter.mpr ⟨ht, by simp [hts]⟩
      have hpf : List.Pairwise (fun a b => a.start ≤ b.start)
          (turns.filter (fun t => t.speaker == sp)) :=
        List.Pairwise.filter _ hsort
      cases hfl : turns.filter (fun t => t.speaker == sp) with
      | nil => rw [hfl] at hmemf; simp at hmemf
      | cons f0 ftail =>
          rw [hfl] at hf hmemf hpf
          simp only [List.head?_cons, Option.some.injEq] at hf
          subst hf
          rcases List.mem_cons.mp hmemf with rfl | hmem2
          · exact le_refl _
          · exact (List.pairwise_cons.mp hpf).1 t hmem2

/-- C4 counterexample: with turns processed as `B[2,3], A[5,6], A[1,2]`,
speaker `A`'s earliest diarization turn starts at `1`, strictly before
`B`'s earliest start `2`; yet the recorded `first_time`s are `A = 5`,
`B = 2`, so the sort labels `B` as `SPEAKER_1` and `A` as `SPEAKER_2`:
the claimed ordering by earliest turn start fails. -/
theorem claim_C4_counterexample :
    ((ct4Turns.filter (fun t => t.speaker == "A")).map
        (fun t => t.start)).min? = some 1 ∧
    ((ct4Turns.filter (fun t => t.speaker == "B")).map
        (fun t => t.start)).min? = some 2 ∧
    ((1 : ℚ) < 2) ∧
    lookupKey "A" (speakerMapping (buildStats ct4Turns)) = some "SPEAKER_2" ∧
    lookupKey "B" (speakerMapping (buildStats ct4Turns)) = some "SPEAKER_1" := by
  refine ⟨?_, ?_, ?_, ?_, ?_⟩ <;> with_unfolding_all decide

/-- C4 (amended): labels are assigned by sorting SpeakerStats by recorded
`first_time` ascending, so a speaker whose recorded `first_time` (the start
of its first-processed turn) is strictly earlier than another's receives a
strictly smaller `SPEAKER_n` label number; and whenever the diarization
turns are processed in chronological (non-decreasing start) order, a
speaker one of whose turns starts strictly before every turn of another
speaker — in particular a speaker whose earliest turn is strictly earlier —
receives a strictly smaller label number, which is the original claim. -/
theorem claim_C4_chronological_order (turns : List DiarizationTurn)
    (A B : String) (sA sB : Stats)
    (hA : lookupKey A (buildStats turns) = some sA)
    (hB : lookupKey B (buildStats turns) = some sB) :
    (sA.first_time < sB.first_time →
      ∃ i j : Nat, lookupKey A (speakerMapping (buildStats turns)) =
          some (speakerLabel i) ∧
        lookupKey B (speakerMapping (buildStats turns)) =
          some (speakerLabel j) ∧ i < j) ∧
    (List.Pairwise (fun a b => a.start ≤ b.start) turns →
      ∀ tA ∈ turns, tA.speaker = A →
        (∀ tB ∈ turns, tB.speaker = B → tA.start < tB.start) →
        ∃ i j : Nat, lookupKey A (speakerMapping (buildStats turns)) =
            some (speakerLabel i) ∧
          lookupKey B (speakerMapping (buildStats turns)) =
            some (speakerLabel j) ∧ i < j) := by
  have main : sA.first_time < sB.first_time →
      ∃ i j : Nat, lookupKey A (speakerMapping (buildStats turns)) =
          some (speakerLabel i) ∧
        lookupKey B (speakerMapping (buildStats turns)) =
          some (speakerLabel j) ∧ i < j := by
    intro hlt
    have hAB : A ≠ B := by
      intro he
      subst he
      rw [hA] at hB
      injection hB with h2
      rw [h2] at hlt
      exact lt_irrefl _ hlt
    have hperm := sortedSpeakers_perm (buildStats turns)
    have hndk : ((sortedSpeakers (buildStats turns)).map Prod.fst).Nodup :=
      ((hperm.map Prod.fst).nodup_iff).mpr (nodup_keys_buildStats turns)
    have hmemA : (A, sA) ∈ sortedSpeakers (buildStats turns) :=
      hperm.mem_iff.mpr (lookupKey_some_mem hA)
    have hmemB : (B, sB) ∈ sortedSpeakers (buildStats turns) :=
      hperm.mem_iff.mpr (lookupKey_some_mem hB)
    obtain ⟨iA, hgetA⟩ := List.get_of_mem hmemA
    obtain ⟨iB, hgetB⟩ := List.get_of_mem hmemB
    have hpw := sortedSpeakers_pairwise (buildStats turns)
    have hij : (iA : Nat) < (iB : Nat) := by
      rcases lt_trichotomy (iA : Nat) (iB : Nat) with hlt2 | heq | hgt
      · exact hlt2
      · exfalso
        have : iA = iB := Fin.ext heq
        rw [this, hgetB] at hgetA
        exact hAB ((congrArg Prod.fst hgetA).symm)
      · exfalso
        have hle := List.pairwise_iff_get.mp hpw iB iA
          (Fin.lt_def.mpr hgt)
        rw [hgetA, hgetB] at hle
        simp only [statsLe, decide_eq_true_eq] at hle
        exact absurd hlt (not_lt.mpr hle)
    refine ⟨iA, iB, ?_, ?_, hij⟩
    · have := lookupKey_labelEnum (sortedSpeakers (buildStats turns)) hndk 0
        iA iA.isLt A sA hgetA
      simpa [speakerMapping] using this
    · have := lookupKey_labelEnum (sortedSpeakers (buildStats turns)) hndk 0
        iB iB.isLt B sB hgetB
      simpa [speakerMapping] using this
  refine ⟨main, ?_⟩
  intro hsort tA htA htAsp hall
  obtain ⟨t0, ht0mem, ht0sp, ht0eq, -⟩ := buildStats_first_time_spec turns B sB hB
  obtain ⟨-, -, -, -, hlbA⟩ := buildStats_first_time_spec turns A sA hA
  apply main
  rw [ht0eq]
  exact lt_of_le_of_lt (hlbA hsort tA htA htAsp) (hall t0 ht0mem ht0sp)

/-- C4 witness: speaker `X` first speaks at time `0`, speaker `Y` at `5`;
`X` receives a strictly smaller label number. -/
theorem claim_C4_witness :
    ∃ i j : Nat,
      lookupKey "X" (speakerMapping (buildStats [⟨0, 1, "X"⟩, ⟨5, 6, "Y"⟩])) =
        some (speakerLabel i) ∧
      lookupKey "Y" (speakerMapping (buildStats [⟨0, 1, "X"⟩, ⟨5, 6, "Y"⟩])) =
        some (speakerLabel j) ∧
      i < j :=
  (claim_C4_chronological_order [⟨0, 1, "X"⟩, ⟨5, 6, "Y"⟩] "X" "Y" ⟨0, 1⟩ ⟨5, 1⟩
    (by with_unfolding_all decide) (by with_unfolding_all decide)).1
    (by with_unfolding_all decide)

/-- C6: the speaker-mapping values are exactly `SPEAKER_1 .. SPEAKER_k` in
order, where `k` is the number of distinct speaker ids observed in the
diarization turns, and every label the rewrite puts into an output segment
is one of these mapping values. -/
theorem claim_C6_label_density (turns : List DiarizationTurn)
    (segs out : List SpeakerSegment)
    (h : applyMapping (speakerMapping (buildStats turns)) segs = .ok out) :
    ((speakerMapping (buildStats turns)).map Prod.snd =
      (List.range ((turns.map (fun t => t.speaker)).dedup.length)).map
        speakerLabel) ∧
    ∀ s ∈ out, s.speaker ∈ (speakerMapping (buildStats turns)).map Prod.snd := by
  constructor
  · rw [speakerMapping, map_snd_labelEnum]
    have hlen : (sortedSpeakers (buildStats turns)).length =
        (buildStats turns).length := (sortedSpeakers_perm _).length_eq
    have hnd := nodup_keys_buildStats turns
    have hsetrq : ((buildStats turns).map Prod.fst).toFinset =
        (turns.map (fun t => t.speaker)).toFinset := by
      ext x
      simp only [List.mem_toFinset]
      exact mem_keys_buildStats x turns
    have hk : (buildStats turns).length =
        (turns.map (fun t => t.speaker)).dedup.length := by
      calc (buildStats turns).length
          = ((buildStats turns).map Prod.fst).length :=
            (List.length_map _ _).symm
        _ = ((buildStats turns).map Prod.fst).toFinset.card :=
            (List.toFinset_card_of_nodup hnd).symm
        _ = (turns.map (fun t => t.speaker)).toFinset.card := by rw [hsetrq]
        _ = (turns.map (fun t => t.speaker)).dedup.length :=
            List.card_toFinset _
    rw [hlen, hk]
    apply List.map_congr_left
    intro i _
    rw [zero_add]
  · exact applyMapping_speakers _ _ _ h

/-- C6 witness: one observed speaker; the mapping values are exactly
`[SPEAKER_1]`. -/
theorem claim_C6_witness :
    ((speakerMapping (buildStats [⟨0, 1, "A"⟩])).map Prod.snd =
      (List.range ((([(⟨0, 1, "A"⟩ : DiarizationTurn)]).map
          (fun t => t.speaker)).dedup.length)).map speakerLabel) ∧
    ∀ s ∈ ([] : List SpeakerSegment),
      s.speaker ∈ (speakerMapping (buildStats [⟨0, 1, "A"⟩])).map Prod.snd :=
  claim_C6_label_density [⟨0, 1, "A"⟩] [] [] rfl

/-- C10: with a non-empty SpeakerStats, the attribution loop always
succeeds, every speaker it records is a SpeakerStats key, and the
label-normalization rewrite is therefore a total lookup that never misses. -/
theorem claim_C10_resolver_totality (turns : List DiarizationTurn)
    (segs : List TranscriptSegment) (h : buildStats turns ≠ []) :
    ∃ out, attributeFrom (buildStats turns) turns none "" segs = .ok out ∧
      (∀ s ∈ out, s.speaker ∈ (buildStats turns).map Prod.fst) ∧
      ∃ out2, applyMapping (speakerMapping (buildStats turns)) out = .ok out2 := by
  obtain ⟨out, hout, hmem⟩ :=
    attributeFrom_total turns h segs none "" (fun hpre => absurd rfl hpre)
  exact ⟨out, hout, hmem, applyMapping_total _ out hmem⟩

/-- C10 witness: one turn and one segment; attribution and label rewrite
both succeed. -/
theorem claim_C10_witness :
    ∃ out, attributeFrom (buildStats [⟨0, 1, "A"⟩]) [⟨0, 1, "A"⟩] none ""
        [⟨0, 1, "hi"⟩] = .ok out ∧
      (∀ s ∈ out, s.speaker ∈ (buildStats [⟨0, 1, "A"⟩]).map Prod.fst) ∧
      ∃ out2, applyMapping (speakerMapping (buildStats [⟨0, 1, "A"⟩])) out =
        .ok out2 :=
  claim_C10_resolver_totality [⟨0, 1, "A"⟩] [⟨0, 1, "hi"⟩]
    (by with_unfolding_all decide)

/-- C5 counterexample: hesitant previous text and a ≤4-word completion are
not reassigned when the current segment overlaps no diarized slot (first
run: another speaker `B` exists in SpeakerStats, yet the output keeps `A`
for both segments), nor when SpeakerStats holds no other speaker (second
run); the claimed unconditional override fails. -/
theorem claim_C5_counterexample :
    endsWithHesitation "we should... we should" = true ∧
    isCompletion "we should... we should" "go now" = true ∧
    ((buildStats ct5Turns).map Prod.fst).filter (fun s => s ≠ "A") = ["B"] ∧
    attributeFrom (buildStats ct5Turns) ct5Turns none "" ct5Segs =
      .ok [⟨"A", 0, 0.02, "we should... we should"⟩,
        ⟨"A", 0.05, 0.06, "go now"⟩] ∧
    attributeFrom (buildStats ct5TurnsOne) ct5TurnsOne none "" ct5SegsOne =
      .ok [⟨"A", 0, 0.01, "we should... we should"⟩,
        ⟨"A", 0.01, 0.02, "go now"⟩] := by
  refine ⟨?_, ?_, ?_, ?_, ?_⟩ <;> with_unfolding_all decide

/-- C5 (amended): when the current segment overlaps at least one diarized
slot (so a majority speaker is computed), the previous text and previous
speaker are non-empty, the current text completes the hesitant previous
text, and SpeakerStats contains at least one speaker other than the
previous one, the current segment's speaker is overridden to the first such
candidate in SpeakerStats iteration order — a speaker different from the
previous segment's. -/
theorem claim_C5_hesitation_override (stats : List (String × Stats))
    (turns : List DiarizationTurn) (ps prev_text text : String) (a b : ℚ)
    (sp0 o : String) (others : List String)
    (hmaj : mostCommon (speakersInSegment turns a b) = some sp0)
    (hpt : prev_text ≠ "") (hps : ps ≠ "")
    (hcompl : isCompletion prev_text text = true)
    (hothers : (stats.map Prod.fst).filter (fun s => s ≠ ps) = o :: others) :
    chooseSpeaker stats turns (some ps) prev_text a b text = .ok o ∧ o ≠ ps := by
  constructor
  · simp only [chooseSpeaker, hmaj, prevStr]
    rw [if_pos ⟨hpt, hps⟩, if_pos hcompl, hothers]
  · have hmemo : o ∈ (stats.map Prod.fst).filter (fun s => s ≠ ps) :=
      hothers ▸ List.mem_cons_self o others
    simpa using List.of_mem_filter hmemo

/-- C5 witness: scenario B — previous hesitant text attributed to `A`, the
short completion `"go now"` overlapping `B`'s diarized slot is reassigned
to `B ≠ A`. -/
theorem claim_C5_witness :
    chooseSpeaker (buildStats ct5Turns) ct5Turns (some "A")
        "I think we should... we should" 0.02 0.03 "go now" = .ok "B" ∧
      "B" ≠ "A" :=
  claim_C5_hesitation_override (buildStats ct5Turns) ct5Turns "A"
    "I think we should... we should" "go now" 0.02 0.03 "B" "B" []
    (by with_unfolding_all decide) (by decide) (by decide)
    (by with_unfolding_all decide) (by with_unfolding_all decide)
